import Mathlib

/-!
Verification of the compression-search core of the repository
(`zip.py` and `zip_video.py`).

The scripts are shallowly embedded: the external encoders (PIL `save`,
`ffmpeg`) are abstracted as functions from an encode configuration to the
byte length of the encoded output, images are represented by their pixel
dimensions, and the file-system effects of a run are recorded as an explicit
trace of actions.  The fixed downscale ratio `0.9` of the source is modelled
exactly as multiplication by 9 followed by floor division by 10 on natural
numbers.
-/

/-- Pixel dimensions of the in-memory working image (`work.size` in the source). -/
structure Sz where
  w : Nat
  h : Nat
deriving DecidableEq, Repr

/-- How a run mutates a persisted file: a plain `open(path, "wb")` write,
or the temporary-file-then-`os.replace` pattern. -/
inductive Method where
  | direct
  | tempReplace
deriving DecidableEq, Repr

/-- File-system effects of one compression run, in order of occurrence.
`mutateOriginal` overwrites the file being compressed, `writeNew` creates a
sibling path with a different extension, `removeOriginal` deletes the file
being compressed, `writeTmp` writes the scratch `.tmp` file of the video/GIF
loops (not a mutation of the stored file). -/
inductive Act where
  | mutateOriginal (m : Method) (len : Nat)
  | writeNew (ext : String) (m : Method) (len : Nat)
  | removeOriginal
  | writeTmp (len : Nat)
deriving DecidableEq, Repr

namespace zip

/-- `TARGET_SIZE = 1 * 1024 * 1024` from `zip.py`. -/
def TARGET_SIZE : Nat := 1 * 1024 * 1024

/-- `MIN_QUALITY = 20` from `zip.py`. -/
def MIN_QUALITY : Nat := 20

/-- `QUALITY_STEP = 5` from `zip.py`. -/
def QUALITY_STEP : Nat := 5

/-- `ALLOW_PNG_TO_WEBP = True` from `zip.py`. -/
def ALLOW_PNG_TO_WEBP : Bool := true

/-- One downscale step: `(max(1, int(w * 0.9)), max(1, int(h * 0.9)))`
from `zip.py` (the ratio `DOWNSCALE_RATIO = 0.9` is modelled exactly as
`* 9 / 10` in natural-number arithmetic). -/
def nextSize (s : Sz) : Sz :=
  ⟨max 1 (s.w * 9 / 10), max 1 (s.h * 9 / 10)⟩

/-- ASCII lowercase of a string (Python's `str.lower` on the format names
involved), implemented by structural recursion over the characters. -/
def strLower (s : String) : String :=
  ⟨s.data.map Char.toLower⟩

/-- `_format_supports_quality` from `zip.py`: `fmt.lower() in ("jpeg", "jpg",
"webp", "avif", "heif", "heic", "jxl")`. -/
def _format_supports_quality (fmt : String) : Bool :=
  strLower fmt ∈ ["jpeg", "jpg", "webp", "avif", "heif", "heic", "jxl"]

/-- Result of the inner quality loop of `_progressive_compress`: either a
probe fit the budget (`accepted`), or quality reached the floor with the
last probe still over budget (`exhausted`).  Carries the quality probed last
and the byte length of that probe. -/
inductive QRes where
  | accepted (q len : Nat)
  | exhausted (q len : Nat)
deriving DecidableEq, Repr

/-- The inner `while True` quality loop of `_progressive_compress`
(zip.py lines 50–56) at a fixed image size.  `f q` is the byte length of
saving the working image at quality `q` (`len(_try_save_to_bytes(work, fmt,
quality=q, ...))`).  Returns the list of qualities probed, in order, together
with the outcome. -/
def qualityRamp (f : Nat → Nat) (min_quality quality_step : Nat)
    (hstep : 0 < quality_step) (q : Nat) : List Nat × QRes :=
  if f q ≤ TARGET_SIZE then ([q], .accepted q (f q))
  else if q ≤ min_quality then ([q], .exhausted q (f q))
  else
    let r := qualityRamp f min_quality quality_step hstep (q - quality_step)
    (q :: r.1, r.2)
termination_by q
decreasing_by omega

/-- The value `_progressive_compress` returns, enriched with the encode
configuration that produced it: final working size, the quality passed to the
final save (`none` for formats without a quality parameter), and the byte
length of the returned buffer. -/
structure ProbeResult where
  sz : Sz
  q : Option Nat
  len : Nat
deriving DecidableEq, Repr

/-- The stop condition of both scale loops (zip.py lines 67 and 121):
`new_size == work.size or min(new_size) <= 1`. -/
def scaleFloor (s : Sz) : Prop :=
  nextSize s = s ∨ min (nextSize s).w (nextSize s).h ≤ 1

instance (s : Sz) : Decidable (scaleFloor s) :=
  inferInstanceAs
    (Decidable (nextSize s = s ∨ min (nextSize s).w (nextSize s).h ≤ 1))

/-- In the branch of either scale loop that resizes, the new size is
strictly smaller on both axes. -/
theorem nextSize_lt (s : Sz) (h : ¬scaleFloor s) :
    (nextSize s).w < s.w ∧ (nextSize s).h < s.h := by
  unfold scaleFloor at h
  push_neg at h
  obtain ⟨-, hmin⟩ := h
  simp only [nextSize] at hmin ⊢
  omega

/-- `_progressive_compress` from `zip.py` (lines 28–75).  `enc fmt sz q?` is
the byte length of `_try_save_to_bytes` for the working image at size `sz`
in format `fmt`, with optional `quality` argument (the per-call-site
`save_kwargs` are folded into `enc`).  The first component is the trace of
probes made, as (size, optional quality) pairs in order; the second is the
returned buffer's configuration and length. -/
def _progressive_compress (enc : String → Sz → Option Nat → Nat) (fmt : String)
    (initial_quality min_quality quality_step : Nat) (hstep : 0 < quality_step)
    (s : Sz) : List (Sz × Option Nat) × ProbeResult :=
  if _format_supports_quality fmt then
    let r := qualityRamp (fun q => enc fmt s (some q)) min_quality quality_step
      hstep initial_quality
    let probes := r.1.map (fun q => (s, some q))
    match r.2 with
    | .accepted q len => (probes, ⟨s, some q, len⟩)
    | .exhausted _ _ =>
      if h : scaleFloor s then
        let q := max min_quality 10
        (probes ++ [(s, some q)], ⟨s, some q, enc fmt s (some q)⟩)
      else
        let rest := _progressive_compress enc fmt initial_quality min_quality
          quality_step hstep (nextSize s)
        (probes ++ rest.1, rest.2)
  else
    if enc fmt s none ≤ TARGET_SIZE then
      ([(s, none)], ⟨s, none, enc fmt s none⟩)
    else
      if h : scaleFloor s then
        ([(s, none), (s, none)], ⟨s, none, enc fmt s none⟩)
      else
        let rest := _progressive_compress enc fmt initial_quality min_quality
          quality_step hstep (nextSize s)
        ((s, none) :: rest.1, rest.2)
termination_by s.w + s.h
decreasing_by
  all_goals
    have := nextSize_lt s (by assumption)
    omega

/-- The data of a PIL image the scripts inspect: `img.mode`, `img.getbands()`,
whether palette-transparency info is attached (PIL stores it in `img.info`;
nothing in `zip.py` reads it), and `img.format`. -/
structure PImage where
  mode : String
  bands : List String
  transparencyInfo : Bool
  format : Option String
deriving DecidableEq, Repr

/-- `has_alpha` from `zip.py`:
`("A" in img.getbands()) or (img.mode in ("LA", "RGBA", "PA"))`. -/
def has_alpha (img : PImage) : Bool :=
  img.bands.contains "A" || ["LA", "RGBA", "PA"].contains img.mode

/-- The scale-only loop of the transparent-PNG branch of `compress_image`
(zip.py lines 118–128).  `pngLen sz` is the byte length of the lossless PNG
re-encode (`optimize=True, compress_level=9`) at size `sz`; `dataLen` is the
length of the most recent encode (`data` in the source).  Returns the list of
sizes resampled to, in order, and the final `(work size, data length, fit)`
triple, where `fit` records whether the loop returned by writing a
within-budget result. -/
def png_scale_loop (pngLen : Sz → Nat) (s : Sz) (dataLen : Nat) :
    List Sz × (Sz × Nat × Bool) :=
  if h : scaleFloor s then
    ([], (s, dataLen, false))
  else
    if pngLen (nextSize s) ≤ TARGET_SIZE then
      ([nextSize s], (nextSize s, pngLen (nextSize s), true))
    else
      let r := png_scale_loop pngLen (nextSize s) (pngLen (nextSize s))
      (nextSize s :: r.1, r.2)
termination_by s.w + s.h
decreasing_by
  all_goals
    have := nextSize_lt s (by assumption)
    omega

/-- The transparent-PNG branch of `compress_image` (zip.py lines 107–153):
lossless full-effort re-encode, then lossless scale-only rounds, then —
depending on `allow` (`ALLOW_PNG_TO_WEBP`) — either a lossy-WebP conversion
written to a new `.webp` path with the original deleted, or a direct write of
the best lossless-scaled bytes to the original path. -/
def compress_png_alpha (enc : String → Sz → Option Nat → Nat) (allow : Bool)
    (s : Sz) : List Act :=
  if enc "PNG" s none ≤ TARGET_SIZE then
    [.mutateOriginal .direct (enc "PNG" s none)]
  else
    if (png_scale_loop (fun sz => enc "PNG" sz none) s (enc "PNG" s none)).2.2.2 then
      [.mutateOriginal .direct
        (png_scale_loop (fun sz => enc "PNG" sz none) s (enc "PNG" s none)).2.2.1]
    else if allow then
      [.writeNew "webp" .direct
        ((_progressive_compress enc "WEBP" 95 MIN_QUALITY QUALITY_STEP
          (by decide) s).2.len),
       .removeOriginal]
    else
      [.mutateOriginal .direct
        (png_scale_loop (fun sz => enc "PNG" sz none) s (enc "PNG" s none)).2.2.1]

/-- `compress_image` from `zip.py` (lines 78–216), as the trace of file
actions of one run.  `enc` abstracts `_try_save_to_bytes` (per-format
`save_kwargs` folded in), `ext` is the raw extension from the path (the
source lowercases it), and `other_fmt_fails` models whether the
re-encode-in-original-format attempt of the fallback branch raises. -/
def compress_image (enc : String → Sz → Option Nat → Nat)
    (other_fmt_fails : Bool) (ext : String) (img : PImage) (s : Sz) :
    List Act :=
  if strLower ext = ".jpg" ∨ strLower ext = ".jpeg" then
    [.mutateOriginal .direct
      ((_progressive_compress enc "JPEG" 95 MIN_QUALITY QUALITY_STEP
        (by decide) s).2.len)]
  else if strLower ext = ".png" then
    if has_alpha img then
      compress_png_alpha enc ALLOW_PNG_TO_WEBP s
    else
      [.writeNew "jpg" .direct
        ((_progressive_compress enc "JPEG" 95 MIN_QUALITY QUALITY_STEP
          (by decide) s).2.len),
       .removeOriginal]
  else if strLower ext = ".webp" then
    [.mutateOriginal .direct
      ((_progressive_compress enc "WEBP" 95 MIN_QUALITY QUALITY_STEP
        (by decide) s).2.len)]
  else
    if other_fmt_fails then
      [.writeNew "jpg" .direct
        ((_progressive_compress enc "JPEG" 95 MIN_QUALITY QUALITY_STEP
          (by decide) s).2.len)]
    else
      [.mutateOriginal .direct
        ((_progressive_compress enc (img.format.getD "PNG") 95 MIN_QUALITY
          QUALITY_STEP (by decide) s).2.len)]

/-- One file seen by `process_folder`: its identity, whether its name matches
the scanned extensions, its on-disk size, and the outcome of the body of
`compress_image` on it (`.error` models the body raising an exception, which
the `try/except` at zip.py lines 80/218 catches). -/
structure ImgEntry where
  id : Nat
  ext_ok : Bool
  size : Nat
  body : Except String (List Act)
deriving Repr

/-- The `try/except` wrapper of `compress_image` (zip.py lines 80, 218–219):
an exception from the body is caught and reported; the run then performs no
file actions. -/
def compress_image_guarded (body : Except String (List Act)) : List Act :=
  match body with
  | .ok acts => acts
  | .error _ => []

/-- `process_folder` from `zip.py` (lines 221–248): for every file whose name
matches and whose size exceeds `TARGET_SIZE`, invoke (guarded)
`compress_image`; other files are untouched.  Returns, in scan order, the id
of each file the compressor was invoked on with its action trace. -/
def process_folder : List ImgEntry → List (Nat × List Act)
  | [] => []
  | e :: rest =>
    if e.ext_ok && decide (TARGET_SIZE < e.size) then
      (e.id, compress_image_guarded e.body) :: process_folder rest
    else
      process_folder rest

end zip

namespace zip_video

/-- `TARGET_SIZE = 3 * 1024 * 1024` from `zip_video.py`. -/
def TARGET_SIZE : Nat := 3 * 1024 * 1024

/-- The `while True` loop of `compress_video` (zip_video.py lines 12–24).
`size crf` is the byte length of the ffmpeg output at that CRF.  Each round
writes the `.tmp.mp4` file; on fit or at the CRF cap 40 the temp file is
swapped over the original with `os.replace`.  Returns the action trace and
the final CRF. -/
def compress_video_loop (size : Nat → Nat) (crf : Nat) : List Act × Nat :=
  if size crf ≤ TARGET_SIZE ∨ 40 ≤ crf then
    ([.writeTmp (size crf), .mutateOriginal .tempReplace (size crf)], crf)
  else
    let r := compress_video_loop size (crf + 2)
    (.writeTmp (size crf) :: r.1, r.2)
termination_by 40 - crf
decreasing_by omega

/-- `compress_video` from `zip_video.py`: the loop starting at `crf = 28`. -/
def compress_video (size : Nat → Nat) : List Act × Nat :=
  compress_video_loop size 28

/-- The `while True` loop of `compress_gif` (zip_video.py lines 30–39).
`size q` is the byte length of the Pillow GIF re-encode at quality `q`.
Returns the action trace and the final quality. -/
def compress_gif_loop (size : Nat → Nat) (q : Nat) : List Act × Nat :=
  if size q ≤ TARGET_SIZE ∨ q ≤ 10 then
    ([.writeTmp (size q), .mutateOriginal .tempReplace (size q)], q)
  else
    let r := compress_gif_loop size (q - 10)
    (.writeTmp (size q) :: r.1, r.2)
termination_by q
decreasing_by omega

/-- `compress_gif` from `zip_video.py`: the loop starting at `quality = 80`. -/
def compress_gif (size : Nat → Nat) : List Act × Nat :=
  compress_gif_loop size 80

/-- One file seen by `scan_and_compress`: identity, whether its name ends in
`.mp4` or `.gif`, its size, whether compressing it raises (nothing in
`zip_video.py` catches exceptions), and the action trace when it succeeds. -/
structure VidEntry where
  id : Nat
  is_mp4 : Bool
  is_gif : Bool
  size : Nat
  fails : Bool
  acts : List Act
deriving Repr

/-- `scan_and_compress` from `zip_video.py` (lines 41–53): for every `.mp4`
or `.gif` file larger than `TARGET_SIZE`, compress it.  There is no exception
handler, so a raising compression aborts the remaining scan: the second
component records whether the scan ran to completion, and the first lists
(in order) the id and actions of each file processed before any abort. -/
def scan_and_compress : List VidEntry → List (Nat × List Act) × Bool
  | [] => ([], true)
  | e :: rest =>
    if (e.is_mp4 || e.is_gif) && decide (TARGET_SIZE < e.size) then
      if e.fails then ([], false)
      else
        let r := scan_and_compress rest
        ((e.id, e.acts) :: r.1, r.2)
    else
      scan_and_compress rest

end zip_video

namespace zip

theorem getLast?_cons_of_ne_nil {α : Type} (a : α) {l : List α} (h : l ≠ []) :
    (a :: l).getLast? = l.getLast? := by
  cases l with
  | nil => exact absurd rfl h
  | cons y t => exact List.getLast?_cons_cons

theorem pairwise_of_trivial {α : Type} {R : α → α → Prop} (h : ∀ a b, R a b) :
    ∀ l : List α, List.Pairwise R l
  | [] => .nil
  | a :: l => .cons (fun b _ => h a b) (pairwise_of_trivial h l)


/-! Helper lemmas about the inner quality loop. -/

theorem qualityRamp_trace_ne_nil (f : Nat → Nat) (mq st : Nat) (hst : 0 < st)
    (q : Nat) : (qualityRamp f mq st hst q).1 ≠ [] := by
  rw [qualityRamp]
  split_ifs <;> simp

theorem qualityRamp_head (f : Nat → Nat) (mq st : Nat) (hst : 0 < st)
    (q : Nat) : (qualityRamp f mq st hst q).1.head? = some q := by
  rw [qualityRamp]
  split_ifs <;> simp

theorem qualityRamp_mem_le (f : Nat → Nat) (mq st : Nat) (hst : 0 < st) :
    ∀ q, ∀ x ∈ (qualityRamp f mq st hst q).1, x ≤ q := by
  intro q
  induction q using Nat.strong_induction_on with
  | _ q ih =>
    rw [qualityRamp]
    split_ifs with h1 h2
    · simp
    · simp
    · intro x hx
      rcases List.mem_cons.mp hx with hx | hx
      · omega
      · have := ih (q - st) (by omega) x hx
        omega

theorem qualityRamp_pairwise_gt (f : Nat → Nat) (mq st : Nat) (hst : 0 < st) :
    ∀ q, List.Pairwise (fun a b => b < a) (qualityRamp f mq st hst q).1 := by
  intro q
  induction q using Nat.strong_induction_on with
  | _ q ih =>
    rw [qualityRamp]
    split_ifs with h1 h2
    · simp
    · simp
    · refine List.pairwise_cons.mpr ⟨?_, ih (q - st) (by omega)⟩
      intro x hx
      have := qualityRamp_mem_le f mq st hst (q - st) x hx
      omega

/-- Consecutive probed qualities: each is the previous minus the step, and
the previous was still above the floor. -/
theorem qualityRamp_chain (f : Nat → Nat) (mq st : Nat) (hst : 0 < st) :
    ∀ q, List.Chain' (fun a b => b = a - st ∧ mq < a)
      (qualityRamp f mq st hst q).1 := by
  intro q
  induction q using Nat.strong_induction_on with
  | _ q ih =>
    rw [qualityRamp]
    split_ifs with h1 h2
    · simp
    · simp
    · refine List.chain'_cons'.mpr ⟨?_, ih (q - st) (by omega)⟩
      intro y hy
      rw [qualityRamp_head f mq st hst (q - st)] at hy
      cases hy
      omega

/-- If the quality loop returns `accepted`, the accepted probe is the last
one made, its length is the saved length, it fits the budget, and every
earlier probe was over budget. -/
theorem qualityRamp_accepted (f : Nat → Nat) (mq st : Nat) (hst : 0 < st) :
    ∀ q q' len, (qualityRamp f mq st hst q).2 = .accepted q' len →
      (qualityRamp f mq st hst q).1.getLast? = some q' ∧ len = f q' ∧
      len ≤ TARGET_SIZE ∧
      ∀ x ∈ (qualityRamp f mq st hst q).1.dropLast, TARGET_SIZE < f x := by
  intro q
  induction q using Nat.strong_induction_on with
  | _ q ih =>
    intro q' len
    rw [qualityRamp]
    split_ifs with h1 h2
    · intro h
      obtain ⟨rfl, rfl⟩ := QRes.accepted.inj h
      simp [h1]
    · intro h
      exact absurd h (by simp)
    · intro h
      have hne := qualityRamp_trace_ne_nil f mq st hst (q - st)
      obtain ⟨hlast, hlen, hfit, hover⟩ := ih (q - st) (by omega) q' len h
      refine ⟨?_, hlen, hfit, ?_⟩
      · rw [getLast?_cons_of_ne_nil _ hne]
        exact hlast
      · intro x hx
        rw [List.dropLast_cons_of_ne_nil hne] at hx
        rcases List.mem_cons.mp hx with rfl | hx
        · omega
        · exact hover x hx

/-- If the quality loop returns `exhausted`, the last probe was made at a
quality at or below the floor, it is the carried result, it is over budget,
and in fact every probe of the loop was over budget. -/
theorem qualityRamp_exhausted (f : Nat → Nat) (mq st : Nat) (hst : 0 < st) :
    ∀ q q' len, (qualityRamp f mq st hst q).2 = .exhausted q' len →
      (qualityRamp f mq st hst q).1.getLast? = some q' ∧ len = f q' ∧
      TARGET_SIZE < len ∧ q' ≤ mq ∧
      ∀ x ∈ (qualityRamp f mq st hst q).1, TARGET_SIZE < f x := by
  intro q
  induction q using Nat.strong_induction_on with
  | _ q ih =>
    intro q' len
    rw [qualityRamp]
    split_ifs with h1 h2
    · intro h
      exact absurd h (by simp)
    · intro h
      obtain ⟨rfl, rfl⟩ := QRes.exhausted.inj h
      refine ⟨by simp, rfl, by omega, h2, ?_⟩
      intro x hx
      obtain rfl := List.mem_singleton.mp hx
      omega
    · intro h
      have hne := qualityRamp_trace_ne_nil f mq st hst (q - st)
      obtain ⟨hlast, hlen, hover, hfloor, hall⟩ := ih (q - st) (by omega) q' len h
      refine ⟨?_, hlen, hover, hfloor, ?_⟩
      · rw [getLast?_cons_of_ne_nil _ hne]
        exact hlast
      · intro x hx
        rcases List.mem_cons.mp hx with rfl | hx
        · omega
        · exact hall x hx

/-- If the floor is at most the start and the step divides their distance,
no probed quality is ever below the floor. -/
theorem qualityRamp_floor (f : Nat → Nat) (mq st : Nat) (hst : 0 < st) :
    ∀ q, mq ≤ q → st ∣ (q - mq) →
      ∀ x ∈ (qualityRamp f mq st hst q).1, mq ≤ x := by
  intro q
  induction q using Nat.strong_induction_on with
  | _ q ih =>
    intro hmq hdvd
    rw [qualityRamp]
    split_ifs with h1 h2
    · simpa using hmq
    · simpa using hmq
    · intro x hx
      rcases List.mem_cons.mp hx with rfl | hx
      · exact hmq
      · have hge : st ≤ q - mq := Nat.le_of_dvd (by omega) hdvd
        refine ih (q - st) (by omega) (by omega) ?_ x hx
        have : q - st - mq = q - mq - st := by omega
        rw [this]
        exact Nat.dvd_sub' hdvd dvd_rfl

/-- The quality loop makes at most `q + 1` probes. -/
theorem qualityRamp_length (f : Nat → Nat) (mq st : Nat) (hst : 0 < st) :
    ∀ q, (qualityRamp f mq st hst q).1.length ≤ q + 1 := by
  intro q
  induction q using Nat.strong_induction_on with
  | _ q ih =>
    rw [qualityRamp]
    split_ifs with h1 h2
    · simp
    · simp
    · have := ih (q - st) (by omega)
      simp only [List.length_cons]
      omega


/-- One execution of the orchestrator follows exactly one of six shapes:
quality ramp accepted; quality ramp exhausted at the scale floor (best-effort
re-probe); quality ramp exhausted with a downscale and recursion; single
probe accepted (format without quality); single probe over budget at the
scale floor (best-effort re-save); single probe over budget with a downscale
and recursion. -/
theorem prog_shape (enc : String → Sz → Option Nat → Nat) (fmt : String)
    (iq mq st : Nat) (hst : 0 < st) (s : Sz) :
    (_format_supports_quality fmt = true ∧
      ((∃ q' len,
        (qualityRamp (fun q => enc fmt s (some q)) mq st hst iq).2 =
          .accepted q' len ∧
        _progressive_compress enc fmt iq mq st hst s =
          ((qualityRamp (fun q => enc fmt s (some q)) mq st hst iq).1.map
            (fun q => (s, some q)), ⟨s, some q', len⟩)) ∨
      (∃ q' len,
        (qualityRamp (fun q => enc fmt s (some q)) mq st hst iq).2 =
          .exhausted q' len ∧
        scaleFloor s ∧
        _progressive_compress enc fmt iq mq st hst s =
          ((qualityRamp (fun q => enc fmt s (some q)) mq st hst iq).1.map
            (fun q => (s, some q)) ++ [(s, some (max mq 10))],
           ⟨s, some (max mq 10), enc fmt s (some (max mq 10))⟩)) ∨
      (∃ q' len,
        (qualityRamp (fun q => enc fmt s (some q)) mq st hst iq).2 =
          .exhausted q' len ∧
        ¬scaleFloor s ∧
        _progressive_compress enc fmt iq mq st hst s =
          ((qualityRamp (fun q => enc fmt s (some q)) mq st hst iq).1.map
            (fun q => (s, some q)) ++
            (_progressive_compress enc fmt iq mq st hst (nextSize s)).1,
           (_progressive_compress enc fmt iq mq st hst (nextSize s)).2)))) ∨
    (_format_supports_quality fmt = false ∧
      ((enc fmt s none ≤ TARGET_SIZE ∧
        _progressive_compress enc fmt iq mq st hst s =
          ([(s, none)], ⟨s, none, enc fmt s none⟩)) ∨
      (TARGET_SIZE < enc fmt s none ∧ scaleFloor s ∧
        _progressive_compress enc fmt iq mq st hst s =
          ([(s, none), (s, none)], ⟨s, none, enc fmt s none⟩)) ∨
      (TARGET_SIZE < enc fmt s none ∧ ¬scaleFloor s ∧
        _progressive_compress enc fmt iq mq st hst s =
          ((s, none) ::
            (_progressive_compress enc fmt iq mq st hst (nextSize s)).1,
           (_progressive_compress enc fmt iq mq st hst (nextSize s)).2)))) := by
  by_cases hsup : _format_supports_quality fmt
  · refine Or.inl ⟨hsup, ?_⟩
    rcases hr : (qualityRamp (fun q => enc fmt s (some q)) mq st hst iq).2 with
      ⟨q', len⟩ | ⟨q', len⟩
    · refine Or.inl ⟨q', len, rfl, ?_⟩
      rw [_progressive_compress]
      simp only [hsup, if_true, hr]
    · by_cases hfl : scaleFloor s
      · refine Or.inr (Or.inl ⟨q', len, rfl, hfl, ?_⟩)
        rw [_progressive_compress]
        simp only [hsup, if_true, hr, dif_pos hfl]
      · refine Or.inr (Or.inr ⟨q', len, rfl, hfl, ?_⟩)
        rw [_progressive_compress]
        simp only [hsup, if_true, hr, dif_neg hfl]
  · rw [Bool.not_eq_true] at hsup
    refine Or.inr ⟨hsup, ?_⟩
    by_cases hfit : enc fmt s none ≤ TARGET_SIZE
    · refine Or.inl ⟨hfit, ?_⟩
      rw [_progressive_compress]
      simp only [hsup, Bool.false_eq_true, if_false, if_pos hfit]
    · by_cases hfl : scaleFloor s
      · refine Or.inr (Or.inl ⟨by omega, hfl, ?_⟩)
        rw [_progressive_compress]
        simp only [hsup, Bool.false_eq_true, if_false, if_neg hfit, dif_pos hfl]
      · refine Or.inr (Or.inr ⟨by omega, hfl, ?_⟩)
        rw [_progressive_compress]
        simp only [hsup, Bool.false_eq_true, if_false, if_neg hfit, dif_neg hfl]

/-- Probe `b` comes no earlier than probe `a` in a run: either at the same
working size, or at one strictly smaller on both axes. -/
def shrinkRel (a b : Sz × Option Nat) : Prop :=
  a.1 = b.1 ∨ (b.1.w < a.1.w ∧ b.1.h < a.1.h)

/-- Relation between an earlier probe `a` and a later probe `b` of one run:
they are at different sizes (the quality ramp restarted), or their qualities
strictly decrease, or `b` is the best-effort re-probe at `max(min_quality,
10)`. -/
def qualRel (mq : Nat) (a b : Sz × Option Nat) : Prop :=
  a.1 ≠ b.1 ∨ (∀ qa qb, a.2 = some qa → b.2 = some qb → qb < qa) ∨
    b.2 = some (max mq 10)

theorem prog_trace_ne_nil (enc : String → Sz → Option Nat → Nat) (fmt : String)
    (iq mq st : Nat) (hst : 0 < st) (s : Sz) :
    (_progressive_compress enc fmt iq mq st hst s).1 ≠ [] := by
  have hne := qualityRamp_trace_ne_nil (fun q => enc fmt s (some q)) mq st hst iq
  rcases prog_shape enc fmt iq mq st hst s with
    ⟨hsup, hA | hB | hC⟩ | ⟨hsup, hD | hE | hF⟩
  · obtain ⟨q', len, hr, heq⟩ := hA
    rw [heq]
    simpa using hne
  · obtain ⟨q', len, hr, hfl, heq⟩ := hB
    rw [heq]
    simp
  · obtain ⟨q', len, hr, hfl, heq⟩ := hC
    rw [heq]
    simpa using fun h _ => hne h
  · obtain ⟨hfit, heq⟩ := hD
    rw [heq]
    simp
  · obtain ⟨hfit, hfl, heq⟩ := hE
    rw [heq]
    simp
  · obtain ⟨hfit, hfl, heq⟩ := hF
    rw [heq]
    simp

/-- Every probe of a run is at a size no larger than the starting size. -/
theorem prog_mem_size (enc : String → Sz → Option Nat → Nat) (fmt : String)
    (iq mq st : Nat) (hst : 0 < st) :
    ∀ s : Sz, ∀ p ∈ (_progressive_compress enc fmt iq mq st hst s).1,
      p.1.w ≤ s.w ∧ p.1.h ≤ s.h := by
  have main : ∀ n : Nat, ∀ s : Sz, s.w + s.h ≤ n →
      ∀ p ∈ (_progressive_compress enc fmt iq mq st hst s).1,
        p.1.w ≤ s.w ∧ p.1.h ≤ s.h := by
    intro n
    induction n using Nat.strong_induction_on with
    | _ n ih =>
      intro s hs p hp
      rcases prog_shape enc fmt iq mq st hst s with
        ⟨hsup, hA | hB | hC⟩ | ⟨hsup, hD | hE | hF⟩
      · obtain ⟨q', len, hr, heq⟩ := hA
        rw [heq] at hp
        obtain ⟨q, hq, rfl⟩ := List.mem_map.mp hp
        exact ⟨le_refl _, le_refl _⟩
      · obtain ⟨q', len, hr, hfl, heq⟩ := hB
        rw [heq] at hp
        rcases List.mem_append.mp hp with hp | hp
        · obtain ⟨q, hq, rfl⟩ := List.mem_map.mp hp
          exact ⟨le_refl _, le_refl _⟩
        · obtain rfl := List.mem_singleton.mp hp
          exact ⟨le_refl _, le_refl _⟩
      · obtain ⟨q', len, hr, hfl, heq⟩ := hC
        rw [heq] at hp
        rcases List.mem_append.mp hp with hp | hp
        · obtain ⟨q, hq, rfl⟩ := List.mem_map.mp hp
          exact ⟨le_refl _, le_refl _⟩
        · have hlt := nextSize_lt s hfl
          have := ih (n - 1) (by omega) (nextSize s) (by omega) p hp
          omega
      · obtain ⟨hfit, heq⟩ := hD
        rw [heq] at hp
        obtain rfl := List.mem_singleton.mp hp
        exact ⟨le_refl _, le_refl _⟩
      · obtain ⟨hfit, hfl, heq⟩ := hE
        rw [heq] at hp
        rcases List.mem_cons.mp hp with rfl | hp
        · exact ⟨le_refl _, le_refl _⟩
        · obtain rfl := List.mem_singleton.mp hp
          exact ⟨le_refl _, le_refl _⟩
      · obtain ⟨hfit, hfl, heq⟩ := hF
        rw [heq] at hp
        rcases List.mem_cons.mp hp with rfl | hp
        · exact ⟨le_refl _, le_refl _⟩
        · have hlt := nextSize_lt s hfl
          have := ih (n - 1) (by omega) (nextSize s) (by omega) p hp
          omega
  exact fun s => main (s.w + s.h) s (le_refl _)

/-- Within one run the working dimensions only ever shrink: any later probe
is at the same size as an earlier one or at a size strictly smaller on both
axes. -/
theorem prog_pairwise_size (enc : String → Sz → Option Nat → Nat)
    (fmt : String) (iq mq st : Nat) (hst : 0 < st) :
    ∀ s : Sz,
      List.Pairwise shrinkRel (_progressive_compress enc fmt iq mq st hst s).1 := by
  have main : ∀ n : Nat, ∀ s : Sz, s.w + s.h ≤ n →
      List.Pairwise shrinkRel (_progressive_compress enc fmt iq mq st hst s).1 := by
    intro n
    induction n using Nat.strong_induction_on with
    | _ n ih =>
      intro s hs
      have hblock : ∀ l : List Nat,
          List.Pairwise shrinkRel (l.map (fun q => (s, some q))) :=
        fun l => List.pairwise_map.mpr (pairwise_of_trivial (fun a b => Or.inl rfl) l)
      have hmapfst : ∀ l : List Nat,
          ∀ p ∈ l.map (fun q => (s, some q)), p.1 = s := by
        intro l p hp
        obtain ⟨q, hq, rfl⟩ := List.mem_map.mp hp
        rfl
      rcases prog_shape enc fmt iq mq st hst s with
        ⟨hsup, hA | hB | hC⟩ | ⟨hsup, hD | hE | hF⟩
      · obtain ⟨q', len, hr, heq⟩ := hA
        rw [heq]
        exact hblock _
      · obtain ⟨q', len, hr, hfl, heq⟩ := hB
        rw [heq]
        refine List.pairwise_append.mpr ⟨hblock _, by simp, ?_⟩
        intro a ha b hb
        obtain rfl := List.mem_singleton.mp hb
        exact Or.inl (hmapfst _ a ha)
      · obtain ⟨q', len, hr, hfl, heq⟩ := hC
        rw [heq]
        have hlt := nextSize_lt s hfl
        refine List.pairwise_append.mpr
          ⟨hblock _, ih (n - 1) (by omega) (nextSize s) (by omega), ?_⟩
        intro a ha b hb
        have hbs := prog_mem_size enc fmt iq mq st hst (nextSize s) b hb
        have has := hmapfst _ a ha
        right
        rw [has]
        omega
      · obtain ⟨hfit, heq⟩ := hD
        rw [heq]
        simp
      · obtain ⟨hfit, hfl, heq⟩ := hE
        rw [heq]
        refine List.pairwise_cons.mpr ⟨?_, by simp⟩
        intro b hb
        obtain rfl := List.mem_singleton.mp hb
        exact Or.inl rfl
      · obtain ⟨hfit, hfl, heq⟩ := hF
        rw [heq]
        have hlt := nextSize_lt s hfl
        refine List.pairwise_cons.mpr
          ⟨?_, ih (n - 1) (by omega) (nextSize s) (by omega)⟩
        intro b hb
        have hbs := prog_mem_size enc fmt iq mq st hst (nextSize s) b hb
        right
        show b.1.w < s.w ∧ b.1.h < s.h
        omega
  exact fun s => main (s.w + s.h) s (le_refl _)

/-- The probe trace with its final probe removed contains no repeated
(size, quality) pair. -/
theorem prog_dropLast_nodup (enc : String → Sz → Option Nat → Nat)
    (fmt : String) (iq mq st : Nat) (hst : 0 < st) :
    ∀ s : Sz,
      (_progressive_compress enc fmt iq mq st hst s).1.dropLast.Nodup := by
  have main : ∀ n : Nat, ∀ s : Sz, s.w + s.h ≤ n →
      (_progressive_compress enc fmt iq mq st hst s).1.dropLast.Nodup := by
    intro n
    induction n using Nat.strong_induction_on with
    | _ n ih =>
      intro s hs
      have hrampnd : ((qualityRamp (fun q => enc fmt s (some q)) mq st hst iq).1.map
          (fun q => (s, some q))).Nodup := by
        refine List.Nodup.map ?_ ?_
        · intro a b hab
          exact Option.some.inj (congrArg Prod.snd hab)
        · exact (qualityRamp_pairwise_gt (fun q => enc fmt s (some q)) mq st hst iq).imp
            (fun h => ne_of_gt h)
      have hmapfst : ∀ p ∈ (qualityRamp (fun q => enc fmt s (some q)) mq st hst iq).1.map
          (fun q => (s, some q)), p.1 = s := by
        intro p hp
        obtain ⟨q, hq, rfl⟩ := List.mem_map.mp hp
        rfl
      rcases prog_shape enc fmt iq mq st hst s with
        ⟨hsup, hA | hB | hC⟩ | ⟨hsup, hD | hE | hF⟩
      · obtain ⟨q', len, hr, heq⟩ := hA
        rw [heq]
        exact (List.dropLast_sublist _).nodup hrampnd
      · obtain ⟨q', len, hr, hfl, heq⟩ := hB
        rw [heq, List.dropLast_concat]
        exact hrampnd
      · obtain ⟨q', len, hr, hfl, heq⟩ := hC
        rw [heq]
        have hlt := nextSize_lt s hfl
        obtain ⟨y, t, hyt⟩ :=
          List.exists_cons_of_ne_nil (prog_trace_ne_nil enc fmt iq mq st hst (nextSize s))
        rw [hyt, List.dropLast_append_cons]
        refine List.nodup_append.mpr ⟨hrampnd, ?_, ?_⟩
        · have := ih (n - 1) (by omega) (nextSize s) (by omega)
          rw [hyt] at this
          exact this
        · intro a ha hb
          have has := hmapfst a ha
          have hbmem : a ∈ (_progressive_compress enc fmt iq mq st hst (nextSize s)).1 := by
            rw [hyt]
            exact (List.dropLast_sublist _).mem hb
          have hbs := prog_mem_size enc fmt iq mq st hst (nextSize s) a hbmem
          rw [has] at hbs
          omega
      · obtain ⟨hfit, heq⟩ := hD
        rw [heq]
        simp
      · obtain ⟨hfit, hfl, heq⟩ := hE
        rw [heq]
        simp
      · obtain ⟨hfit, hfl, heq⟩ := hF
        rw [heq]
        have hlt := nextSize_lt s hfl
        obtain ⟨y, t, hyt⟩ :=
          List.exists_cons_of_ne_nil (prog_trace_ne_nil enc fmt iq mq st hst (nextSize s))
        rw [hyt, List.dropLast_cons₂]
        refine List.nodup_cons.mpr ⟨?_, ?_⟩
        · intro hb
          have hbmem : ((s : Sz), (none : Option Nat)) ∈
              (_progressive_compress enc fmt iq mq st hst (nextSize s)).1 := by
            rw [hyt]
            exact (List.dropLast_sublist _).mem hb
          have hbs := prog_mem_size enc fmt iq mq st hst (nextSize s) _ hbmem
          simp only at hbs
          omega
        · have := ih (n - 1) (by omega) (nextSize s) (by omega)
          rw [hyt] at this
          exact this
  exact fun s => main (s.w + s.h) s (le_refl _)

/-- Within one run, two probes at the same size either come from one quality
ramp (strictly decreasing quality) or the later one is the best-effort
re-probe at `max(min_quality, 10)`; probes at different sizes are unrelated
because the quality ramp restarts after every downscale. -/
theorem prog_pairwise_qual (enc : String → Sz → Option Nat → Nat)
    (fmt : String) (iq mq st : Nat) (hst : 0 < st) :
    ∀ s : Sz,
      List.Pairwise (qualRel mq) (_progressive_compress enc fmt iq mq st hst s).1 := by
  have main : ∀ n : Nat, ∀ s : Sz, s.w + s.h ≤ n →
      List.Pairwise (qualRel mq) (_progressive_compress enc fmt iq mq st hst s).1 := by
    intro n
    induction n using Nat.strong_induction_on with
    | _ n ih =>
      intro s hs
      have hblock : List.Pairwise (qualRel mq)
          ((qualityRamp (fun q => enc fmt s (some q)) mq st hst iq).1.map
            (fun q => (s, some q))) := by
        refine List.pairwise_map.mpr ?_
        refine (qualityRamp_pairwise_gt (fun q => enc fmt s (some q)) mq st hst iq).imp ?_
        intro a b hab
        refine Or.inr (Or.inl ?_)
        intro qa qb hqa hqb
        obtain rfl := Option.some.inj hqa
        obtain rfl := Option.some.inj hqb
        exact hab
      have hmapfst : ∀ p ∈ (qualityRamp (fun q => enc fmt s (some q)) mq st hst iq).1.map
          (fun q => (s, some q)), p.1 = s := by
        intro p hp
        obtain ⟨q, hq, rfl⟩ := List.mem_map.mp hp
        rfl
      rcases prog_shape enc fmt iq mq st hst s with
        ⟨hsup, hA | hB | hC⟩ | ⟨hsup, hD | hE | hF⟩
      · obtain ⟨q', len, hr, heq⟩ := hA
        rw [heq]
        exact hblock
      · obtain ⟨q', len, hr, hfl, heq⟩ := hB
        rw [heq]
        refine List.pairwise_append.mpr ⟨hblock, by simp, ?_⟩
        intro a ha b hb
        obtain rfl := List.mem_singleton.mp hb
        exact Or.inr (Or.inr rfl)
      · obtain ⟨q', len, hr, hfl, heq⟩ := hC
        rw [heq]
        have hlt := nextSize_lt s hfl
        refine List.pairwise_append.mpr
          ⟨hblock, ih (n - 1) (by omega) (nextSize s) (by omega), ?_⟩
        intro a ha b hb
        have hbs := prog_mem_size enc fmt iq mq st hst (nextSize s) b hb
        have has := hmapfst a ha
        left
        intro hab
        rw [has] at hab
        rw [← hab] at hbs
        omega
      · obtain ⟨hfit, heq⟩ := hD
        rw [heq]
        simp
      · obtain ⟨hfit, hfl, heq⟩ := hE
        rw [heq]
        refine List.pairwise_cons.mpr ⟨?_, by simp⟩
        intro b hb
        obtain rfl := List.mem_singleton.mp hb
        refine Or.inr (Or.inl ?_)
        intro qa qb hqa hqb
        cases hqa
      · obtain ⟨hfit, hfl, heq⟩ := hF
        rw [heq]
        have hlt := nextSize_lt s hfl
        refine List.pairwise_cons.mpr
          ⟨?_, ih (n - 1) (by omega) (nextSize s) (by omega)⟩
        intro b hb
        have hbs := prog_mem_size enc fmt iq mq st hst (nextSize s) b hb
        left
        intro hab
        rw [← hab] at hbs
        simp only at hbs
        omega
  exact fun s => main (s.w + s.h) s (le_refl _)

/-- The number of probes of one run is finitely bounded in terms of the
starting size and the initial quality. -/
theorem prog_length (enc : String → Sz → Option Nat → Nat) (fmt : String)
    (iq mq st : Nat) (hst : 0 < st) :
    ∀ s : Sz,
      (_progressive_compress enc fmt iq mq st hst s).1.length ≤
        (s.w + s.h + 1) * (iq + 2) := by
  have main : ∀ n : Nat, ∀ s : Sz, s.w + s.h ≤ n →
      (_progressive_compress enc fmt iq mq st hst s).1.length ≤
        (s.w + s.h + 1) * (iq + 2) := by
    intro n
    induction n using Nat.strong_induction_on with
    | _ n ih =>
      intro s hs
      have hrl := qualityRamp_length (fun q => enc fmt s (some q)) mq st hst iq
      have hone : iq + 2 ≤ (s.w + s.h + 1) * (iq + 2) :=
        Nat.le_mul_of_pos_left _ (by omega)
      rcases prog_shape enc fmt iq mq st hst s with
        ⟨hsup, hA | hB | hC⟩ | ⟨hsup, hD | hE | hF⟩
      · obtain ⟨q', len, hr, heq⟩ := hA
        rw [heq]
        rw [List.length_map]
        omega
      · obtain ⟨q', len, hr, hfl, heq⟩ := hB
        rw [heq]
        rw [List.length_append, List.length_map, List.length_singleton]
        omega
      · obtain ⟨q', len, hr, hfl, heq⟩ := hC
        rw [heq]
        have hlt := nextSize_lt s hfl
        have hrest := ih (n - 1) (by omega) (nextSize s) (by omega)
        have hmul : ((nextSize s).w + (nextSize s).h + 1) * (iq + 2) ≤
            (s.w + s.h) * (iq + 2) :=
          Nat.mul_le_mul_right _ (by omega)
        have hsplit : (s.w + s.h + 1) * (iq + 2) =
            (s.w + s.h) * (iq + 2) + (iq + 2) := by ring
        rw [List.length_append, List.length_map]
        set A := (s.w + s.h) * (iq + 2) with hA
        set B := ((nextSize s).w + (nextSize s).h + 1) * (iq + 2) with hB
        omega
      · obtain ⟨hfit, heq⟩ := hD
        rw [heq]
        simp only [List.length_singleton]
        omega
      · obtain ⟨hfit, hfl, heq⟩ := hE
        rw [heq]
        simp only [List.length_cons, List.length_singleton, List.length_nil]
        omega
      · obtain ⟨hfit, hfl, heq⟩ := hF
        rw [heq]
        have hlt := nextSize_lt s hfl
        have hrest := ih (n - 1) (by omega) (nextSize s) (by omega)
        have hmul : ((nextSize s).w + (nextSize s).h + 1) * (iq + 2) ≤
            (s.w + s.h) * (iq + 2) :=
          Nat.mul_le_mul_right _ (by omega)
        have hsplit : (s.w + s.h + 1) * (iq + 2) =
            (s.w + s.h) * (iq + 2) + (iq + 2) := by ring
        rw [List.length_cons]
        set A := (s.w + s.h) * (iq + 2) with hA
        set B := ((nextSize s).w + (nextSize s).h + 1) * (iq + 2) with hB
        omega
  exact fun s => main (s.w + s.h) s (le_refl _)

/-- If the floor is at most the initial quality and the step divides their
distance, no probe of the whole run — the best-effort re-probe at
`max(min_quality, 10)` included — carries a quality below the floor. -/
theorem prog_floor (enc : String → Sz → Option Nat → Nat) (fmt : String)
    (iq mq st : Nat) (hst : 0 < st) (hmq : mq ≤ iq) (hdvd : st ∣ (iq - mq)) :
    ∀ s : Sz, ∀ p ∈ (_progressive_compress enc fmt iq mq st hst s).1,
      ∀ q, p.2 = some q → mq ≤ q := by
  have main : ∀ n : Nat, ∀ s : Sz, s.w + s.h ≤ n →
      ∀ p ∈ (_progressive_compress enc fmt iq mq st hst s).1,
        ∀ q, p.2 = some q → mq ≤ q := by
    intro n
    induction n using Nat.strong_induction_on with
    | _ n ih =>
      intro s hs p hp q hq
      have hfloor := qualityRamp_floor (fun q => enc fmt s (some q)) mq st hst iq hmq hdvd
      rcases prog_shape enc fmt iq mq st hst s with
        ⟨hsup, hA | hB | hC⟩ | ⟨hsup, hD | hE | hF⟩
      · obtain ⟨q', len, hr, heq⟩ := hA
        rw [heq] at hp
        obtain ⟨x, hx, rfl⟩ := List.mem_map.mp hp
        obtain rfl := Option.some.inj hq
        exact hfloor x hx
      · obtain ⟨q', len, hr, hfl, heq⟩ := hB
        rw [heq] at hp
        rcases List.mem_append.mp hp with hp | hp
        · obtain ⟨x, hx, rfl⟩ := List.mem_map.mp hp
          obtain rfl := Option.some.inj hq
          exact hfloor x hx
        · obtain rfl := List.mem_singleton.mp hp
          obtain rfl := Option.some.inj hq
          omega
      · obtain ⟨q', len, hr, hfl, heq⟩ := hC
        rw [heq] at hp
        rcases List.mem_append.mp hp with hp | hp
        · obtain ⟨x, hx, rfl⟩ := List.mem_map.mp hp
          obtain rfl := Option.some.inj hq
          exact hfloor x hx
        · have hlt := nextSize_lt s hfl
          exact ih (n - 1) (by omega) (nextSize s) (by omega) p hp q hq
      · obtain ⟨hfit, heq⟩ := hD
        rw [heq] at hp
        obtain rfl := List.mem_singleton.mp hp
        cases hq
      · obtain ⟨hfit, hfl, heq⟩ := hE
        rw [heq] at hp
        rcases List.mem_cons.mp hp with rfl | hp
        · cases hq
        · obtain rfl := List.mem_singleton.mp hp
          cases hq
      · obtain ⟨hfit, hfl, heq⟩ := hF
        rw [heq] at hp
        rcases List.mem_cons.mp hp with rfl | hp
        · cases hq
        · have hlt := nextSize_lt s hfl
          exact ih (n - 1) (by omega) (nextSize s) (by omega) p hp q hq
  exact fun s => main (s.w + s.h) s (le_refl _)

/-- A downscale step never produces a dimension below 1 on either axis. -/
theorem nextSize_pos (s : Sz) : 1 ≤ (nextSize s).w ∧ 1 ≤ (nextSize s).h := by
  simp only [nextSize]
  omega

/-- Characterisation of the PNG scale-only loop: when it reports a fit, the
carried bytes are the encode at the final size and are within budget; when it
reports exhaustion, the final size is at the scale floor and the carried
bytes are either the initial data (no resize happened) or the encode at the
final size. -/
theorem png_scale_loop_spec (pngLen : Sz → Nat) :
    ∀ s d,
      ((png_scale_loop pngLen s d).2.2.2 = true →
        (png_scale_loop pngLen s d).2.2.1 ≤ TARGET_SIZE ∧
        (png_scale_loop pngLen s d).2.2.1 = pngLen (png_scale_loop pngLen s d).2.1) ∧
      ((png_scale_loop pngLen s d).2.2.2 = false →
        scaleFloor (png_scale_loop pngLen s d).2.1 ∧
        ((png_scale_loop pngLen s d).2.1 = s ∧
          (png_scale_loop pngLen s d).2.2.1 = d ∨
         (png_scale_loop pngLen s d).2.2.1 =
           pngLen (png_scale_loop pngLen s d).2.1)) := by
  have main : ∀ n : Nat, ∀ s : Sz, s.w + s.h ≤ n → ∀ d,
      ((png_scale_loop pngLen s d).2.2.2 = true →
        (png_scale_loop pngLen s d).2.2.1 ≤ TARGET_SIZE ∧
        (png_scale_loop pngLen s d).2.2.1 = pngLen (png_scale_loop pngLen s d).2.1) ∧
      ((png_scale_loop pngLen s d).2.2.2 = false →
        scaleFloor (png_scale_loop pngLen s d).2.1 ∧
        ((png_scale_loop pngLen s d).2.1 = s ∧
          (png_scale_loop pngLen s d).2.2.1 = d ∨
         (png_scale_loop pngLen s d).2.2.1 =
           pngLen (png_scale_loop pngLen s d).2.1)) := by
    intro n
    induction n using Nat.strong_induction_on with
    | _ n ih =>
      intro s hs d
      rw [png_scale_loop]
      split_ifs with hfl hfit
      · constructor
        · intro h
          simp at h
        · intro h
          exact ⟨hfl, Or.inl ⟨rfl, rfl⟩⟩
      · constructor
        · intro h
          exact ⟨hfit, rfl⟩
        · intro h
          simp at h
      · have hlt := nextSize_lt s hfl
        have IH := ih (n - 1) (by omega) (nextSize s) (by omega) (pngLen (nextSize s))
        refine ⟨fun h => (IH.1 h), fun h => ?_⟩
        obtain ⟨h1, h2⟩ := IH.2 h
        refine ⟨h1, Or.inr ?_⟩
        rcases h2 with ⟨he, hd⟩ | hd
        · rw [hd, he]
        · exact hd
  exact fun s d => main (s.w + s.h) s (le_refl _) d

/-- Every size the PNG scale-only loop resamples to is strictly smaller than
the starting size on both axes, and never smaller than 1 on either axis. -/
theorem png_scale_loop_mem (pngLen : Sz → Nat) :
    ∀ s : Sz, ∀ d, ∀ x ∈ (png_scale_loop pngLen s d).1,
      x.w < s.w ∧ x.h < s.h ∧ 1 ≤ x.w ∧ 1 ≤ x.h := by
  have main : ∀ n : Nat, ∀ s : Sz, s.w + s.h ≤ n → ∀ d,
      ∀ x ∈ (png_scale_loop pngLen s d).1,
        x.w < s.w ∧ x.h < s.h ∧ 1 ≤ x.w ∧ 1 ≤ x.h := by
    intro n
    induction n using Nat.strong_induction_on with
    | _ n ih =>
      intro s hs d x hx
      rw [png_scale_loop] at hx
      split_ifs at hx with hfl hfit
      · cases hx
      · obtain rfl := List.mem_singleton.mp hx
        have h1 := nextSize_lt s hfl
        have h2 := nextSize_pos s
        omega
      · have hlt := nextSize_lt s hfl
        rcases List.mem_cons.mp hx with rfl | hx
        · have := nextSize_pos s
          omega
        · have := ih (n - 1) (by omega) (nextSize s) (by omega)
            (pngLen (nextSize s)) x hx
          omega
  exact fun s => main (s.w + s.h) s (le_refl _)

/-- The sizes the PNG scale-only loop resamples to strictly decrease, so no
(width, height) pair is ever resampled to twice. -/
theorem png_scale_loop_pairwise (pngLen : Sz → Nat) :
    ∀ s : Sz, ∀ d,
      List.Pairwise (fun a b : Sz => b.w < a.w ∧ b.h < a.h)
        (png_scale_loop pngLen s d).1 := by
  have main : ∀ n : Nat, ∀ s : Sz, s.w + s.h ≤ n → ∀ d,
      List.Pairwise (fun a b : Sz => b.w < a.w ∧ b.h < a.h)
        (png_scale_loop pngLen s d).1 := by
    intro n
    induction n using Nat.strong_induction_on with
    | _ n ih =>
      intro s hs d
      rw [png_scale_loop]
      split_ifs with hfl hfit
      · simp
      · simp
      · have hlt := nextSize_lt s hfl
        refine List.pairwise_cons.mpr
          ⟨?_, ih (n - 1) (by omega) (nextSize s) (by omega) (pngLen (nextSize s))⟩
        intro b hb
        have := png_scale_loop_mem pngLen (nextSize s) (pngLen (nextSize s)) b hb
        omega
  exact fun s => main (s.w + s.h) s (le_refl _)

end zip

namespace zip_video

/-- The video loop's trace is a series of temp-file writes followed by a
single atomic replace of the original. -/
theorem compress_video_loop_shape (size : Nat → Nat) :
    ∀ crf, ∃ tmps len,
      (compress_video_loop size crf).1 =
        tmps ++ [.mutateOriginal .tempReplace len] ∧
      ∀ a ∈ tmps, ∃ l, a = Act.writeTmp l := by
  have main : ∀ n crf, 40 - crf ≤ n → ∃ tmps len,
      (compress_video_loop size crf).1 =
        tmps ++ [.mutateOriginal .tempReplace len] ∧
      ∀ a ∈ tmps, ∃ l, a = Act.writeTmp l := by
    intro n
    induction n using Nat.strong_induction_on with
    | _ n ih =>
      intro crf hcrf
      rw [compress_video_loop]
      split_ifs with h
      · refine ⟨[.writeTmp (size crf)], size crf, rfl, ?_⟩
        intro a ha
        obtain rfl := List.mem_singleton.mp ha
        exact ⟨size crf, rfl⟩
      · obtain ⟨tmps, len, heq, htmps⟩ := ih (n - 1) (by omega) (crf + 2) (by omega)
        refine ⟨.writeTmp (size crf) :: tmps, len, ?_, ?_⟩
        · simp only [heq, List.cons_append]
        · intro a ha
          rcases List.mem_cons.mp ha with rfl | ha
          · exact ⟨size crf, rfl⟩
          · exact htmps a ha
  exact fun crf => main (40 - crf) crf (le_refl _)

/-- The video loop makes at most `(42 - crf) / 2 + 2` encoding rounds. -/
theorem compress_video_loop_length (size : Nat → Nat) :
    ∀ crf, (compress_video_loop size crf).1.length ≤ (42 - crf) / 2 + 2 := by
  have main : ∀ n crf, 40 - crf ≤ n →
      (compress_video_loop size crf).1.length ≤ (42 - crf) / 2 + 2 := by
    intro n
    induction n using Nat.strong_induction_on with
    | _ n ih =>
      intro crf hcrf
      rw [compress_video_loop]
      split_ifs with h
      · simp
      · have := ih (n - 1) (by omega) (crf + 2) (by omega)
        simp only [List.length_cons]
        omega
  exact fun crf => main (40 - crf) crf (le_refl _)

/-- The GIF loop's trace is a series of temp-file writes followed by a
single atomic replace of the original. -/
theorem compress_gif_loop_shape (size : Nat → Nat) :
    ∀ q, ∃ tmps len,
      (compress_gif_loop size q).1 =
        tmps ++ [.mutateOriginal .tempReplace len] ∧
      ∀ a ∈ tmps, ∃ l, a = Act.writeTmp l := by
  intro q
  induction q using Nat.strong_induction_on with
  | _ q ih =>
    rw [compress_gif_loop]
    split_ifs with h
    · refine ⟨[.writeTmp (size q)], size q, rfl, ?_⟩
      intro a ha
      obtain rfl := List.mem_singleton.mp ha
      exact ⟨size q, rfl⟩
    · obtain ⟨tmps, len, heq, htmps⟩ := ih (q - 10) (by omega)
      refine ⟨.writeTmp (size q) :: tmps, len, ?_, ?_⟩
      · simp only [heq, List.cons_append]
      · intro a ha
        rcases List.mem_cons.mp ha with rfl | ha
        · exact ⟨size q, rfl⟩
        · exact htmps a ha

/-- The GIF loop makes at most `q / 10 + 2` file writes in total. -/
theorem compress_gif_loop_length (size : Nat → Nat) :
    ∀ q, (compress_gif_loop size q).1.length ≤ q / 10 + 2 := by
  intro q
  induction q using Nat.strong_induction_on with
  | _ q ih =>
    rw [compress_gif_loop]
    split_ifs with h
    · simp
    · have := ih (q - 10) (by omega)
      simp only [List.length_cons]
      omega

end zip_video

/-- Whether an action mutates the file being compressed (overwriting it or
deleting it); writes to new sibling paths and temp-file writes do not. -/
def isMutation : Act → Bool
  | .mutateOriginal _ _ => true
  | .removeOriginal => true
  | _ => false

/-- Whether an action that overwrites the original does so through the
temp-file-then-atomic-replace pattern. -/
def mutationAtomicB : Act → Bool
  | .mutateOriginal m _ => m == .tempReplace
  | _ => true

/-- The last action of the trace exists and is a mutation of the original. -/
def lastIsMutation (tr : List Act) : Bool :=
  (tr.getLast?.map isMutation).getD false

/-- The trace mutates the stored file exactly once, as its final action. -/
def onceAtEnd (tr : List Act) : Prop :=
  lastIsMutation tr = true ∧ ∀ b ∈ tr.dropLast, isMutation b = false

/-- Every overwrite of the original in the trace is an atomic replace. -/
def atomicOnly (tr : List Act) : Prop :=
  ∀ a ∈ tr, mutationAtomicB a = true

namespace zip

/-- Every transparent-PNG run ends in a single direct write of the original,
or a write of a new `.webp` path followed by deletion of the original. -/
theorem compress_png_alpha_shape (enc : String → Sz → Option Nat → Nat)
    (allow : Bool) (s : Sz) :
    (∃ l, compress_png_alpha enc allow s = [.mutateOriginal .direct l]) ∨
    (∃ l, compress_png_alpha enc allow s =
      [.writeNew "webp" .direct l, .removeOriginal]) := by
  unfold compress_png_alpha
  split_ifs with h1 h2 h3
  · exact Or.inl ⟨_, rfl⟩
  · exact Or.inl ⟨_, rfl⟩
  · exact Or.inr ⟨_, rfl⟩
  · exact Or.inl ⟨_, rfl⟩

/-- Every image run's file actions take one of three forms: a single direct
overwrite of the original; a direct write of a new path followed by deletion
of the original; or (fallback-failure branch) a direct write of a new path
with the original kept. -/
theorem compress_image_shape (enc : String → Sz → Option Nat → Nat)
    (other_fmt_fails : Bool) (ext : String) (img : PImage) (s : Sz) :
    (∃ l, compress_image enc other_fmt_fails ext img s =
      [.mutateOriginal .direct l]) ∨
    (∃ e l, compress_image enc other_fmt_fails ext img s =
      [.writeNew e .direct l, .removeOriginal]) ∨
    (∃ e l, compress_image enc other_fmt_fails ext img s =
      [.writeNew e .direct l]) := by
  unfold compress_image
  split_ifs with h1 h2 h3 h4 h5
  · exact Or.inl ⟨_, rfl⟩
  · rcases compress_png_alpha_shape enc ALLOW_PNG_TO_WEBP s with ⟨l, h⟩ | ⟨l, h⟩
    · exact Or.inl ⟨l, h⟩
    · exact Or.inr (Or.inl ⟨_, l, h⟩)
  · exact Or.inr (Or.inl ⟨_, _, rfl⟩)
  · exact Or.inl ⟨_, rfl⟩
  · exact Or.inr (Or.inr ⟨_, _, rfl⟩)
  · exact Or.inl ⟨_, rfl⟩

end zip

/-! ## Claims -/

/-- C2: `_progressive_compress` terminates after finitely many quality/scale
rounds — its probe trace is non-empty and finitely bounded — and, being a
total function into `List (Sz × Option Nat) × ProbeResult`, returns exactly
one byte buffer; the `compress_video` loop starting at CRF 28 (stepping by 2
up to the cap 40) and the `compress_gif` loop starting at quality 80
(stepping by 10 down to the floor 10) likewise produce finitely many file
writes. -/
theorem claim_C2 :
    (∀ (enc : String → Sz → Option Nat → Nat) (fmt : String)
        (iq mq st : Nat) (hst : 0 < st) (s : Sz),
      (zip._progressive_compress enc fmt iq mq st hst s).1 ≠ [] ∧
      (zip._progressive_compress enc fmt iq mq st hst s).1.length ≤
        (s.w + s.h + 1) * (iq + 2)) ∧
    (∀ size : Nat → Nat, (zip_video.compress_video size).1.length ≤ 9) ∧
    (∀ size : Nat → Nat, (zip_video.compress_gif size).1.length ≤ 10) := by
  refine ⟨?_, ?_, ?_⟩
  · intro enc fmt iq mq st hst s
    exact ⟨zip.prog_trace_ne_nil enc fmt iq mq st hst s,
      zip.prog_length enc fmt iq mq st hst s⟩
  · intro size
    have := zip_video.compress_video_loop_length size 28
    simpa [zip_video.compress_video] using this
  · intro size
    have := zip_video.compress_gif_loop_length size 80
    simpa [zip_video.compress_gif] using this

/-- Witness for C2 at a concrete encoder and size. -/
theorem claim_C2_witness :
    (zip._progressive_compress (fun _ _ _ => 0) "JPEG" 95 20 5 (by decide)
      ⟨2, 2⟩).1 ≠ [] ∧
    (zip._progressive_compress (fun _ _ _ => 0) "JPEG" 95 20 5 (by decide)
      ⟨2, 2⟩).1.length ≤ (2 + 2 + 1) * (95 + 2) :=
  claim_C2.1 (fun _ _ _ => 0) "JPEG" 95 20 5 (by decide) ⟨2, 2⟩

/-- C4: with starting quality 95, floor `MIN_QUALITY = 20` and step
`QUALITY_STEP = 5`, no probe of a whole run — the best-effort re-probe at
`max(min_quality, 10)` included — is made at a quality below the floor. -/
theorem claim_C4 (enc : String → Sz → Option Nat → Nat) (fmt : String)
    (s : Sz) :
    ∀ p ∈ (zip._progressive_compress enc fmt 95 zip.MIN_QUALITY
        zip.QUALITY_STEP (by decide) s).1,
      ∀ q, p.2 = some q → zip.MIN_QUALITY ≤ q :=
  zip.prog_floor enc fmt 95 zip.MIN_QUALITY zip.QUALITY_STEP (by decide)
    (by decide) (by decide) s

/-- Witness for C4: the first probe of a run that accepts immediately is at
quality 95, which is at or above the floor. -/
theorem claim_C4_witness : zip.MIN_QUALITY ≤ 95 := by
  refine claim_C4 (fun _ _ _ => 0) "JPEG" ⟨1, 1⟩ (⟨1, 1⟩, some 95) ?_ 95 rfl
  have heval : (zip._progressive_compress (fun _ _ _ => 0) "JPEG" 95
      zip.MIN_QUALITY zip.QUALITY_STEP (by decide) ⟨1, 1⟩).1 =
      [(⟨1, 1⟩, some 95)] := by
    simp [zip._progressive_compress, zip.qualityRamp, zip.TARGET_SIZE,
      zip._format_supports_quality, zip.strLower, zip.scaleFloor, zip.nextSize,
      zip.MIN_QUALITY, zip.QUALITY_STEP]
  rw [heval]
  simp

/-- C5: at a fixed scale the quality search probes the strictly decreasing
sequence `q, q-step, q-2*step, …` (consecutive probes differ by exactly the
step); it returns the first probe within budget as `accepted` (all earlier
probes were over budget); if the floor is reached without any probe fitting
— a probe exactly at the floor that is still over budget included — it
returns `exhausted` carrying the last probed result. -/
theorem claim_C5 (f : Nat → Nat) (mq st : Nat) (hst : 0 < st) (q0 : Nat) :
    (zip.qualityRamp f mq st hst q0).1.head? = some q0 ∧
    List.Chain' (fun a b => b = a - st ∧ mq < a)
      (zip.qualityRamp f mq st hst q0).1 ∧
    List.Pairwise (fun a b => b < a) (zip.qualityRamp f mq st hst q0).1 ∧
    (∀ q len, (zip.qualityRamp f mq st hst q0).2 = zip.QRes.accepted q len →
      (zip.qualityRamp f mq st hst q0).1.getLast? = some q ∧ len = f q ∧
      len ≤ zip.TARGET_SIZE ∧
      ∀ x ∈ (zip.qualityRamp f mq st hst q0).1.dropLast,
        zip.TARGET_SIZE < f x) ∧
    (∀ q len, (zip.qualityRamp f mq st hst q0).2 = zip.QRes.exhausted q len →
      (zip.qualityRamp f mq st hst q0).1.getLast? = some q ∧ len = f q ∧
      zip.TARGET_SIZE < len ∧ q ≤ mq ∧
      ∀ x ∈ (zip.qualityRamp f mq st hst q0).1, zip.TARGET_SIZE < f x) :=
  ⟨zip.qualityRamp_head f mq st hst q0,
   zip.qualityRamp_chain f mq st hst q0,
   zip.qualityRamp_pairwise_gt f mq st hst q0,
   zip.qualityRamp_accepted f mq st hst q0,
   zip.qualityRamp_exhausted f mq st hst q0⟩

/-- Witness for C5 at a concrete encoder. -/
theorem claim_C5_witness :
    (zip.qualityRamp (fun _ => 0) 20 5 (by decide) 95).1.head? = some 95 :=
  (claim_C5 (fun _ => 0) 20 5 (by decide) 95).1

/-- C7: a resolution-search step multiplies each axis by the downscale ratio
and floors, clamped to at least 1, so no produced dimension is ever below 1;
within one run — in `_progressive_compress` as well as in the scale-only
loop of `compress_image`'s transparent-PNG branch — the sizes only shrink,
and the same (width, height) pair is never resampled to twice (resampled-to
sizes strictly decrease on both axes). -/
theorem claim_C7 :
    (∀ s : Sz, 1 ≤ (zip.nextSize s).w ∧ 1 ≤ (zip.nextSize s).h) ∧
    (∀ (enc : String → Sz → Option Nat → Nat) (fmt : String)
        (iq mq st : Nat) (hst : 0 < st) (s : Sz),
      List.Pairwise zip.shrinkRel
        (zip._progressive_compress enc fmt iq mq st hst s).1) ∧
    (∀ (pngLen : Sz → Nat) (s : Sz) (d : Nat),
      List.Pairwise (fun a b : Sz => b.w < a.w ∧ b.h < a.h)
        (zip.png_scale_loop pngLen s d).1 ∧
      ∀ x ∈ (zip.png_scale_loop pngLen s d).1, 1 ≤ x.w ∧ 1 ≤ x.h) := by
  refine ⟨zip.nextSize_pos, ?_, ?_⟩
  · intro enc fmt iq mq st hst s
    exact zip.prog_pairwise_size enc fmt iq mq st hst s
  · intro pngLen s d
    refine ⟨zip.png_scale_loop_pairwise pngLen s d, ?_⟩
    intro x hx
    have := zip.png_scale_loop_mem pngLen s d x hx
    exact ⟨this.2.2.1, this.2.2.2⟩

/-- Witness for C7 at a concrete run. -/
theorem claim_C7_witness :
    List.Pairwise zip.shrinkRel
      (zip._progressive_compress (fun _ _ _ => 0) "JPEG" 95 20 5 (by decide)
        ⟨1, 1⟩).1 :=
  claim_C7.2.1 (fun _ _ _ => 0) "JPEG" 95 20 5 (by decide) ⟨1, 1⟩

/-- C6 (counterexample): the claim as stated — within one run the dimensions
only shrink, the quality parameter only ever decreases, and no (quality,
scale) pair is ever probed twice — is false on the code: on a 1×1 image
whose encodes never fit the budget, the quality ramp's floor probe at
quality 20 is probed again by the best-effort re-probe at
`max(min_quality, 10) = 20` at the same size, so the trace has a duplicate
(quality, scale) pair.  (The quality also fails to be globally decreasing on
larger images, where it resets to 95 after each downscale.) -/
theorem claim_C6_counterexample :
    ¬ (List.Pairwise zip.shrinkRel
        (zip._progressive_compress (fun _ _ _ => zip.TARGET_SIZE + 1) "JPEG"
          95 20 5 (by decide) ⟨1, 1⟩).1 ∧
       List.Pairwise (fun a b : Sz × Option Nat =>
          ∀ qa qb, a.2 = some qa → b.2 = some qb → qb < qa)
        (zip._progressive_compress (fun _ _ _ => zip.TARGET_SIZE + 1) "JPEG"
          95 20 5 (by decide) ⟨1, 1⟩).1 ∧
       (zip._progressive_compress (fun _ _ _ => zip.TARGET_SIZE + 1) "JPEG"
          95 20 5 (by decide) ⟨1, 1⟩).1.Nodup) := by
  intro h
  have heval : (zip._progressive_compress (fun _ _ _ => zip.TARGET_SIZE + 1)
      "JPEG" 95 20 5 (by decide) ⟨1, 1⟩).1 =
      ([(⟨1, 1⟩, some 95), (⟨1, 1⟩, some 90), (⟨1, 1⟩, some 85),
        (⟨1, 1⟩, some 80), (⟨1, 1⟩, some 75), (⟨1, 1⟩, some 70),
        (⟨1, 1⟩, some 65), (⟨1, 1⟩, some 60), (⟨1, 1⟩, some 55),
        (⟨1, 1⟩, some 50), (⟨1, 1⟩, some 45), (⟨1, 1⟩, some 40),
        (⟨1, 1⟩, some 35), (⟨1, 1⟩, some 30), (⟨1, 1⟩, some 25),
        (⟨1, 1⟩, some 20), (⟨1, 1⟩, some 20)] :
        List (Sz × Option Nat)) := by
    simp [zip._progressive_compress, zip.qualityRamp, zip.TARGET_SIZE,
      zip._format_supports_quality, zip.strLower, zip.scaleFloor, zip.nextSize]
  have hnd := h.2.2
  rw [heval] at hnd
  exact absurd hnd (by decide)

/-- C6 (amended): within one run of `_progressive_compress` at the source's
parameters (initial quality 95, floor `MIN_QUALITY`, step `QUALITY_STEP`),
the working dimensions only ever shrink; two probes at the same size either
have strictly decreasing quality or the later one is the best-effort
re-probe at `max(min_quality, 10)` (after a downscale the quality restarts
at the initial value, at a strictly smaller size); and no (quality, scale)
pair is probed twice except that the final probe of a gave-up run (the
best-effort re-probe at the scale floor) may repeat an earlier probe: the
trace with its final probe removed is duplicate-free. -/
theorem claim_C6_amended (enc : String → Sz → Option Nat → Nat)
    (fmt : String) (s : Sz) :
    List.Pairwise zip.shrinkRel
      (zip._progressive_compress enc fmt 95 zip.MIN_QUALITY zip.QUALITY_STEP
        (by decide) s).1 ∧
    List.Pairwise (zip.qualRel zip.MIN_QUALITY)
      (zip._progressive_compress enc fmt 95 zip.MIN_QUALITY zip.QUALITY_STEP
        (by decide) s).1 ∧
    (zip._progressive_compress enc fmt 95 zip.MIN_QUALITY zip.QUALITY_STEP
      (by decide) s).1.dropLast.Nodup :=
  ⟨zip.prog_pairwise_size enc fmt 95 zip.MIN_QUALITY zip.QUALITY_STEP
      (by decide) s,
   zip.prog_pairwise_qual enc fmt 95 zip.MIN_QUALITY zip.QUALITY_STEP
      (by decide) s,
   zip.prog_dropLast_nodup enc fmt 95 zip.MIN_QUALITY zip.QUALITY_STEP
      (by decide) s⟩

/-- C1: for a transparent PNG, the code first attempts the lossless
full-effort re-encode and, when it fits, writes it to the original path;
otherwise it runs lossless scale-only rounds and writes the first fitting
result (within budget) to the original path; if the scale loop exhausts and
`ALLOW_PNG_TO_WEBP` holds, it converts via the full progressive compressor
to lossy WebP, writes the result to a new `.webp` path and deletes the
original; if conversion is not permitted it writes the best lossless-scaled
result (the data carried at the scale floor) to the original path even if
over budget. -/
theorem claim_C1 (enc : String → Sz → Option Nat → Nat) (allow : Bool)
    (s : Sz) :
    (enc "PNG" s none ≤ zip.TARGET_SIZE →
      zip.compress_png_alpha enc allow s =
        [Act.mutateOriginal Method.direct (enc "PNG" s none)]) ∧
    (zip.TARGET_SIZE < enc "PNG" s none →
      (((zip.png_scale_loop (fun sz => enc "PNG" sz none) s
          (enc "PNG" s none)).2.2.2 = true →
        zip.compress_png_alpha enc allow s =
          [Act.mutateOriginal Method.direct
            (zip.png_scale_loop (fun sz => enc "PNG" sz none) s
              (enc "PNG" s none)).2.2.1] ∧
        (zip.png_scale_loop (fun sz => enc "PNG" sz none) s
          (enc "PNG" s none)).2.2.1 ≤ zip.TARGET_SIZE) ∧
      ((zip.png_scale_loop (fun sz => enc "PNG" sz none) s
          (enc "PNG" s none)).2.2.2 = false →
        (allow = true →
          zip.compress_png_alpha enc allow s =
            [Act.writeNew "webp" Method.direct
              ((zip._progressive_compress enc "WEBP" 95 zip.MIN_QUALITY
                zip.QUALITY_STEP (by decide) s).2.len),
             Act.removeOriginal]) ∧
        (allow = false →
          zip.compress_png_alpha enc allow s =
            [Act.mutateOriginal Method.direct
              (zip.png_scale_loop (fun sz => enc "PNG" sz none) s
                (enc "PNG" s none)).2.2.1] ∧
          zip.scaleFloor
            (zip.png_scale_loop (fun sz => enc "PNG" sz none) s
              (enc "PNG" s none)).2.1)))) := by
  constructor
  · intro h
    unfold zip.compress_png_alpha
    rw [if_pos h]
  · intro h
    have hneg : ¬ enc "PNG" s none ≤ zip.TARGET_SIZE := by omega
    constructor
    · intro hfit
      refine ⟨?_, ((zip.png_scale_loop_spec (fun sz => enc "PNG" sz none) s
        (enc "PNG" s none)).1 hfit).1⟩
      unfold zip.compress_png_alpha
      rw [if_neg hneg, if_pos hfit]
    · intro hexh
      constructor
      · intro hallow
        unfold zip.compress_png_alpha
        rw [if_neg hneg, if_neg (by simp [hexh]), if_pos hallow]
      · intro hallow
        refine ⟨?_, ((zip.png_scale_loop_spec (fun sz => enc "PNG" sz none) s
          (enc "PNG" s none)).2 hexh).1⟩
        unfold zip.compress_png_alpha
        rw [if_neg hneg, if_neg (by simp [hexh]), if_neg (by simp [hallow])]

/-- Witness for C1: a PNG whose lossless re-encode already fits is written
back to the original path. -/
theorem claim_C1_witness :
    zip.compress_png_alpha (fun _ _ _ => 0) true ⟨1, 1⟩ =
      [Act.mutateOriginal Method.direct 0] :=
  (claim_C1 (fun _ _ _ => 0) true ⟨1, 1⟩).1 (by decide)

/-- C10: `has_alpha` returns `False` for a palette-mode (`P`) image even
when palette-transparency info is attached, so an over-budget palette PNG
with transparency takes the no-alpha branch of `compress_image`: it is
converted to JPEG by the progressive compressor, written to a new `.jpg`
path, and the original PNG is deleted (discarding the transparency). -/
theorem claim_C10 (enc : String → Sz → Option Nat → Nat)
    (other_fmt_fails : Bool) (t : Bool) (fm : Option String) (s : Sz) :
    zip.has_alpha ⟨"P", ["P"], t, fm⟩ = false ∧
    zip.compress_image enc other_fmt_fails ".png" ⟨"P", ["P"], t, fm⟩ s =
      [Act.writeNew "jpg" Method.direct
        ((zip._progressive_compress enc "JPEG" 95 zip.MIN_QUALITY
          zip.QUALITY_STEP (by decide) s).2.len),
       Act.removeOriginal] := by
  have halpha : zip.has_alpha ⟨"P", ["P"], t, fm⟩ = false := rfl
  refine ⟨halpha, ?_⟩
  unfold zip.compress_image
  rw [if_neg (by decide), if_pos (by decide), if_neg (by simp [halpha])]

/-- C3 (counterexample): the claim as stated — every persisting run mutates
the stored file exactly once, at the end, via a temporary file followed by
an atomic replace — is false on the code: a JPEG run writes its result to
the original path with a plain `open(path, "wb")` write, not through a
temporary file, so its single mutation is not an atomic replace. -/
theorem claim_C3_counterexample :
    ¬ (onceAtEnd (zip.compress_image (fun _ _ _ => 0) false ".jpg"
          ⟨"RGB", ["R", "G", "B"], false, some "JPEG"⟩ ⟨1, 1⟩) ∧
       atomicOnly (zip.compress_image (fun _ _ _ => 0) false ".jpg"
          ⟨"RGB", ["R", "G", "B"], false, some "JPEG"⟩ ⟨1, 1⟩)) := by
  intro h
  have heval : zip.compress_image (fun _ _ _ => 0) false ".jpg"
      ⟨"RGB", ["R", "G", "B"], false, some "JPEG"⟩ ⟨1, 1⟩ =
      [Act.mutateOriginal Method.direct 0] := by
    unfold zip.compress_image
    rw [if_pos (by decide)]
    have hlen : (zip._progressive_compress (fun _ _ _ => 0) "JPEG" 95
        zip.MIN_QUALITY zip.QUALITY_STEP (by decide) ⟨1, 1⟩).2.len = 0 := by
      simp [zip._progressive_compress, zip.qualityRamp, zip.TARGET_SIZE,
        zip._format_supports_quality, zip.strLower, zip.scaleFloor,
        zip.nextSize, zip.MIN_QUALITY, zip.QUALITY_STEP]
    rw [hlen]
  rw [heval] at h
  exact absurd (h.2 (Act.mutateOriginal Method.direct 0) (by simp))
    (by decide)

/-- C3 (amended): every run performs its persistence at the end of the run,
mutating the stored file at most once.  Video and GIF runs write a temp file
each round and finish with a single atomic `os.replace` of the original.
Image runs, however, do not use a temporary file: they end with a single
direct write — overwriting the original, or writing a new path and then
deleting the original, or (fallback-failure branch) writing a new path and
leaving the original untouched. -/
theorem claim_C3_amended :
    (∀ (enc : String → Sz → Option Nat → Nat) (other_fmt_fails : Bool)
        (ext : String) (img : zip.PImage) (s : Sz),
      (∃ l, zip.compress_image enc other_fmt_fails ext img s =
        [Act.mutateOriginal Method.direct l]) ∨
      (∃ e l, zip.compress_image enc other_fmt_fails ext img s =
        [Act.writeNew e Method.direct l, Act.removeOriginal]) ∨
      (∃ e l, zip.compress_image enc other_fmt_fails ext img s =
        [Act.writeNew e Method.direct l])) ∧
    (∀ size : Nat → Nat, ∃ tmps len,
      (zip_video.compress_video size).1 =
        tmps ++ [Act.mutateOriginal Method.tempReplace len] ∧
      ∀ a ∈ tmps, ∃ l, a = Act.writeTmp l) ∧
    (∀ size : Nat → Nat, ∃ tmps len,
      (zip_video.compress_gif size).1 =
        tmps ++ [Act.mutateOriginal Method.tempReplace len] ∧
      ∀ a ∈ tmps, ∃ l, a = Act.writeTmp l) := by
  refine ⟨zip.compress_image_shape, fun size => ?_, fun size => ?_⟩
  · exact zip_video.compress_video_loop_shape size 28
  · exact zip_video.compress_gif_loop_shape size 80

/-- Witness for C3 (amended): a concrete image run's trace is non-empty, as
each of the three persistence shapes is. -/
theorem claim_C3_witness :
    zip.compress_image (fun _ _ _ => 0) false ".jpg"
      ⟨"RGB", ["R", "G", "B"], false, some "JPEG"⟩ ⟨1, 1⟩ ≠ [] := by
  rcases claim_C3_amended.1 (fun _ _ _ => 0) false ".jpg"
      ⟨"RGB", ["R", "G", "B"], false, some "JPEG"⟩ ⟨1, 1⟩ with
    ⟨l, h⟩ | ⟨e, l, h⟩ | ⟨e, l, h⟩ <;> simp [h]

/-- C8 (counterexample): the claim as stated — every per-file failure is
file-scoped and neither scanner is halted by one — is false on the code:
`zip_video.py` has no exception handler, so a raising compression aborts
`scan_and_compress`, and files discovered after the failing one are never
processed. -/
theorem claim_C8_counterexample :
    ¬ ((∀ files : List zip.ImgEntry, ∀ e ∈ files, e.ext_ok = true →
          zip.TARGET_SIZE < e.size →
          (e.id, zip.compress_image_guarded e.body) ∈ zip.process_folder files) ∧
       (∀ files : List zip_video.VidEntry,
          (zip_video.scan_and_compress files).2 = true)) := by
  intro h
  have := h.2 [⟨0, true, false, zip_video.TARGET_SIZE + 1, true, []⟩,
               ⟨1, true, false, zip_video.TARGET_SIZE + 1, false, []⟩]
  simp [zip_video.scan_and_compress, zip_video.TARGET_SIZE] at this

/-- C8 (amended): in the image scanner every failure is file-scoped — the
`try/except` inside `compress_image` swallows it, the failing file gets no
file actions, and every matching oversized file is still visited — but in
the video scanner the first failing eligible file aborts the scan: the
result lists exactly the eligible files before it, reports non-completion,
and everything after it is never processed. -/
theorem claim_C8_amended :
    (∀ files : List zip.ImgEntry, ∀ e ∈ files, e.ext_ok = true →
        zip.TARGET_SIZE < e.size →
        (e.id, zip.compress_image_guarded e.body) ∈ zip.process_folder files) ∧
    (∀ msg : String, zip.compress_image_guarded (Except.error msg) = []) ∧
    (∀ (pre post : List zip_video.VidEntry) (e : zip_video.VidEntry),
        (∀ x ∈ pre,
          ¬(((x.is_mp4 || x.is_gif) && decide (zip_video.TARGET_SIZE < x.size))
              = true ∧ x.fails = true)) →
        ((e.is_mp4 || e.is_gif) && decide (zip_video.TARGET_SIZE < e.size))
          = true →
        e.fails = true →
        zip_video.scan_and_compress (pre ++ e :: post) =
          (pre.filterMap (fun x =>
            if ((x.is_mp4 || x.is_gif) && decide (zip_video.TARGET_SIZE < x.size))
                = true
            then some (x.id, x.acts) else none), false)) := by
  refine ⟨?_, fun msg => rfl, ?_⟩
  · intro files
    induction files with
    | nil => intro e he; cases he
    | cons f rest ih =>
      intro e he hext hsz
      rcases List.mem_cons.mp he with rfl | he
      · rw [zip.process_folder]
        rw [if_pos (by simp [hext, hsz])]
        exact List.mem_cons_self _ _
      · rw [zip.process_folder]
        split_ifs with hc
        · exact List.mem_cons_of_mem _ (ih e he hext hsz)
        · exact ih e he hext hsz
  · intro pre
    induction pre with
    | nil =>
      intro post e hclean helig hfails
      rw [List.nil_append, zip_video.scan_and_compress]
      rw [if_pos helig, if_pos hfails]
      rfl
    | cons x pre ih =>
      intro post e hclean helig hfails
      have hx := hclean x (List.mem_cons_self _ _)
      rw [List.cons_append, zip_video.scan_and_compress]
      by_cases hex : ((x.is_mp4 || x.is_gif) &&
          decide (zip_video.TARGET_SIZE < x.size)) = true
      · have hxf : x.fails = false := by
          rcases Bool.eq_false_or_eq_true x.fails with h | h
          · exact absurd ⟨hex, h⟩ hx
          · exact h
        rw [if_pos hex, if_neg (by simp [hxf])]
        rw [ih post e (fun y hy => hclean y (List.mem_cons_of_mem _ hy))
          helig hfails]
        rw [List.filterMap_cons, if_pos hex]
      · rw [if_neg hex]
        rw [ih post e (fun y hy => hclean y (List.mem_cons_of_mem _ hy))
          helig hfails]
        rw [List.filterMap_cons, if_neg hex]

/-- Witness for C8 (amended): a failing oversized image file is still
visited by the scan, contributing no file actions. -/
theorem claim_C8_witness :
    ((5 : Nat), ([] : List Act)) ∈
      zip.process_folder [⟨5, true, zip.TARGET_SIZE + 1, Except.error "x"⟩] :=
  claim_C8_amended.1 [⟨5, true, zip.TARGET_SIZE + 1, Except.error "x"⟩]
    ⟨5, true, zip.TARGET_SIZE + 1, Except.error "x"⟩ (List.mem_singleton.mpr rfl)
    rfl (Nat.lt_succ_self zip.TARGET_SIZE)

/-- C9: a file whose size is at or below the budget never reaches the
compressor and is left untouched: removing all such files from the
discovered list does not change either scanner's output, because both
scanners check the size against their `TARGET_SIZE` before invoking any
compression function. -/
theorem claim_C9 :
    (∀ files : List zip.ImgEntry,
      zip.process_folder files =
        zip.process_folder
          (files.filter (fun e => decide (zip.TARGET_SIZE < e.size)))) ∧
    (∀ files : List zip_video.VidEntry,
      zip_video.scan_and_compress files =
        zip_video.scan_and_compress
          (files.filter (fun e => decide (zip_video.TARGET_SIZE < e.size)))) := by
  constructor
  · intro files
    induction files with
    | nil => rfl
    | cons e rest ih =>
      by_cases hsz : zip.TARGET_SIZE < e.size
      · rw [List.filter_cons, if_pos (by simpa using hsz)]
        rw [zip.process_folder, zip.process_folder]
        split_ifs with hc
        · rw [ih]
        · exact ih
      · rw [List.filter_cons, if_neg (by simpa using hsz)]
        rw [zip.process_folder]
        rw [if_neg (by simp [hsz])]
        exact ih
  · intro files
    induction files with
    | nil => rfl
    | cons e rest ih =>
      by_cases hsz : zip_video.TARGET_SIZE < e.size
      · rw [List.filter_cons, if_pos (by simpa using hsz)]
        rw [zip_video.scan_and_compress, zip_video.scan_and_compress]
        split_ifs with hc hf
        · rfl
        · rw [ih]
        · exact ih
      · rw [List.filter_cons, if_neg (by simpa using hsz)]
        rw [zip_video.scan_and_compress]
        rw [if_neg (by simp [hsz])]
        exact ih
